import Mathlib

/-!
Verification of the FIFO cache (`KFifoCache`) and its sharded wrapper
(`KHashFifoCache`) from `src/KFifoCache.h`.

The C++ cache keeps two structures per shard, guarded by one mutex:
a doubly linked queue of nodes between two sentinel nodes (`dummyHead_`,
`dummyTail_`), oldest entry adjacent to the head, newest adjacent to the
tail, and an `unordered_map` (`nodeMap_`) from key to the node holding
that key.  The map and the queue alias the same node objects, so a
node's value is stored once and is readable through either structure.

Shallow embedding: the queue between the sentinels is the list of keys
of its nodes in head-to-tail order (`order`), and `nodeMap_` is an
association list from key to the value held by the node the map points
to (`nodeMap`).  Because map and queue alias the same nodes, the value
of the node at position `k` of the queue is exactly the value found for
`k` in `nodeMap`.  `std::unordered_map` exposes no ordering, and every
operation the source performs on it (find, erase, insert, size) is
order-independent, so representing it as a list in insertion order is a
free choice of representation.  All operations below are translated
branch by branch from the source; the mutex and lock_guard lines are
concurrency plumbing with no effect on the sequential state and are not
represented.
-/

namespace Cache

/-- State of `KFifoCache<Key, Value>` (src/KFifoCache.h lines 40-179):
`capacity_` (a C++ `int`), the queue of real nodes between the two
sentinels in head-to-tail order (represented by their keys), and
`nodeMap_` (represented as an association list; the stored value is the
value of the node the map entry points to). -/
structure KFifoCache (Key Value : Type) where
  capacity : Int
  order : List Key
  nodeMap : List (Key × Value)
  deriving Repr, DecidableEq

variable {Key Value : Type} [DecidableEq Key]

/-- `nodeMap_.find(k)` followed by reading the node's value
(`it->second->getValue()`): first entry with key `k`, if any. -/
def mapFind (k : Key) : List (Key × Value) → Option Value
  | [] => none
  | p :: rest => if p.1 = k then some p.2 else mapFind k rest

/-- `nodeMap_.erase(k)`: drop the entry for `k` (the first with that key;
an `unordered_map` holds at most one). -/
def mapErase (k : Key) : List (Key × Value) → List (Key × Value)
  | [] => []
  | p :: rest => if p.1 = k then rest else p :: mapErase k rest

/-- `node->setValue(value)` applied to the node `nodeMap_` resolves for
`k`: overwrite the value of the entry for `k` (the first with that key). -/
def mapSet (k : Key) (v : Value) : List (Key × Value) → List (Key × Value)
  | [] => []
  | p :: rest => if p.1 = k then (k, v) :: rest else p :: mapSet k v rest

/-- `removeNode` applied to the node holding key `k`: unlink it from the
queue (the first node with that key; keys in the queue are unique in
every reachable state). -/
def orderErase (k : Key) : List Key → List Key
  | [] => []
  | k' :: rest => if k' = k then rest else k' :: orderErase k rest

/-- Constructor `KFifoCache(int capacity)` plus `initializeQueue()`
(lines 49-53, 111-118): store the capacity; the queue holds only the two
sentinels, so no real node; the map is empty. -/
def KFifoCache.init (capacity : Int) : KFifoCache Key Value :=
  { capacity := capacity, order := [], nodeMap := [] }

/-- `updateExistingNode(node, value)` (lines 121-125) where `node` is the
node `nodeMap_` resolves for `key`: set the node's value; the queue links
are untouched ("FIFO does not move the node"). -/
def KFifoCache.updateExistingNode (st : KFifoCache Key Value) (key : Key) (value : Value) :
    KFifoCache Key Value :=
  { st with nodeMap := mapSet key value st.nodeMap }

/-- `enqueueNode(node)` (lines 143-150): splice the node in directly
before `dummyTail_`, i.e. append it at the tail of the queue. -/
def KFifoCache.enqueueNode (st : KFifoCache Key Value) (key : Key) : KFifoCache Key Value :=
  { st with order := st.order ++ [key] }

/-- `evictOldest()` (lines 165-171): take `dummyHead_->next_`, unlink it
(`removeNode`), and erase its key from `nodeMap_`.  When the queue has a
real node, that node is the head one.  When the queue is empty (never the
case on the paths that call this, see `addNewNode`), `dummyHead_->next_`
is the tail sentinel: `removeNode` on it is a no-op (its `next_` is null)
and the erase targets the sentinel's default-constructed key `Key()`,
modelled by `default`. -/
def KFifoCache.evictOldest [Inhabited Key] (st : KFifoCache Key Value) : KFifoCache Key Value :=
  match st.order with
  | [] => { st with nodeMap := mapErase default st.nodeMap }
  | oldest :: rest => { st with order := rest, nodeMap := mapErase oldest st.nodeMap }

/-- `addNewNode(key, value)` (lines 128-140): if `nodeMap_.size() >=
capacity_`, evict the oldest node first; then create the node, enqueue it
at the tail and insert it into the map.  The C++ comparison converts
`capacity_` to `size_t`; every call site guarantees `capacity_ > 0`
(`put` returns early otherwise), where that conversion is the identity,
so the comparison is the plain numeric one. -/
def KFifoCache.addNewNode [Inhabited Key] (st : KFifoCache Key Value) (key : Key) (value : Value) :
    KFifoCache Key Value :=
  let st1 := if (st.nodeMap.length : Int) ≥ st.capacity then st.evictOldest else st
  let st2 := st1.enqueueNode key
  { st2 with nodeMap := st2.nodeMap ++ [(key, value)] }

/-- `put(key, value)` (lines 58-73): silent no-op when `capacity_ <= 0`;
otherwise update in place when the key is in the map, else add a new
node. -/
def KFifoCache.put [Inhabited Key] (st : KFifoCache Key Value) (key : Key) (value : Value) :
    KFifoCache Key Value :=
  if st.capacity ≤ 0 then st
  else if (mapFind key st.nodeMap).isSome then st.updateExistingNode key value
  else st.addNewNode key value

/-- Two-result overload `bool get(Key key, Value& value)` (lines 76-87):
on a hit, assign the node's value to the reference and return true; on a
miss return false, the reference untouched.  The pair returned here is
(return value, contents of the caller's variable after the call), with
`value` its contents before the call.  The body performs no writes to the
cache fields, which the state-free signature records. -/
def KFifoCache.get (st : KFifoCache Key Value) (key : Key) (value : Value) : Bool × Value :=
  match mapFind key st.nodeMap with
  | some v => (true, v)
  | none => (false, value)

/-- Single-argument overload `Value get(Key key)` (lines 90-95):
value-initialize a `Value` (`default`), call the two-result overload, and
return the variable's final contents. -/
def KFifoCache.get' [Inhabited Value] (st : KFifoCache Key Value) (key : Key) : Value :=
  (st.get key (default : Value)).2

/-- `remove(key)` (lines 98-107): if the key is in the map, unlink the
node the map points to from the queue and erase the map entry; otherwise
nothing. -/
def KFifoCache.remove (st : KFifoCache Key Value) (key : Key) : KFifoCache Key Value :=
  if (mapFind key st.nodeMap).isSome then
    { st with order := orderErase key st.order, nodeMap := mapErase key st.nodeMap }
  else st

/-- Fold a list of `put` calls over a cache state, in order. -/
def KFifoCache.putAll [Inhabited Key] (st : KFifoCache Key Value) (ps : List (Key × Value)) :
    KFifoCache Key Value :=
  ps.foldl (fun s p => s.put p.1 p.2) st

/-- States reachable from construction by any sequence of `put`, `get`
and `remove` calls.  `get` (both overloads) writes no cache field, so
only the constructor, `put` and `remove` appear. -/
inductive Reachable [Inhabited Key] : KFifoCache Key Value → Prop
  | init (capacity : Int) : Reachable (KFifoCache.init capacity)
  | put {st : KFifoCache Key Value} (key : Key) (value : Value) :
      Reachable st → Reachable (st.put key value)
  | remove {st : KFifoCache Key Value} (key : Key) :
      Reachable st → Reachable (st.remove key)

/-- State of `KHashFifoCache<Key, Value>` (lines 182-233): total
capacity (`size_t`), `sliceNum_` (`int`), and the vector of shard
caches. -/
structure KHashFifoCache (Key Value : Type) where
  capacity : Nat
  sliceNum : Int
  fifoSliceCaches : List (KFifoCache Key Value)

/-- `vec[i]` on the shard vector: element at index `i`; the junk default
is never consulted when `i` is in bounds, as it is at every use below
(`i` is a residue mod `sliceNum_` and the vector has `sliceNum_`
elements). -/
def sliceGet (cs : List (KFifoCache Key Value)) (i : Nat) : KFifoCache Key Value :=
  cs.getD i (KFifoCache.init 0)

/-- In-place mutation `vec[i]->put(...)` of one shard: replace the
element at index `i` by `f` of it. -/
def sliceModify (f : KFifoCache Key Value → KFifoCache Key Value) (i : Nat)
    (cs : List (KFifoCache Key Value)) : List (KFifoCache Key Value) :=
  match cs, i with
  | [], _ => []
  | c :: rest, 0 => f c :: rest
  | c :: rest, n + 1 => c :: sliceModify f n rest

/-- `size_t sliceSize = std::ceil(capacity_ / (double)sliceNum_)` (line
190), modelled as the exact ceiling of the division.  The
double-precision computation agrees with the exact ceiling exactly when
`capacity < 2^53`: both operands are then exactly representable, and
since the true quotient differs from any integer `m` by at least
`1 / n` while rounding the division result to the nearest double moves
it by at most half an ulp (about `m * 2^-53 ≈ capacity / (n * 2^53) <
1 / n`), the rounded quotient can never cross an integer, so its
ceiling is the true one.  For `capacity ≥ 2^53` the double division may
be inexact, so this definition is asserted only under a `capacity <
2^53` hypothesis wherever the shard size matters. -/
def sliceSize (capacity n : Nat) : Nat :=
  (capacity + n - 1) / n

/-- The implicit narrowing conversion applied when the `size_t` value
`sliceSize` is passed to the `int` parameter of `KFifoCache(int
capacity)` in `new KFifoCache<Key, Value>(sliceSize)` (line 193): on the
mainstream data models `int` is 32 bits and the conversion reduces
modulo 2^32 into the signed range, so 2^31 and above wrap to negative
values. -/
def sizeTToInt (v : Nat) : Int :=
  if v % 2 ^ 32 < 2 ^ 31 then ((v % 2 ^ 32 : Nat) : Int)
  else ((v % 2 ^ 32 : Nat) : Int) - 2 ^ 32

/-- Constructor `KHashFifoCache(size_t capacity, int sliceNum)` (lines
186-195): `sliceNum_` is the argument when positive, otherwise
`std::thread::hardware_concurrency()`, an environment-supplied count
passed here as `hw`; then `sliceNum_` shards are built, each a
`KFifoCache` whose `int` capacity is the `size_t` value
`sliceSize = ceil(capacity / sliceNum_)` narrowed by `sizeTToInt`. -/
def KHashFifoCache.mk' (capacity : Nat) (sliceNum : Int) (hw : Nat) :
    KHashFifoCache Key Value :=
  let n : Int := if sliceNum > 0 then sliceNum else (hw : Int)
  { capacity := capacity
    sliceNum := n
    fifoSliceCaches :=
      List.replicate n.toNat (KFifoCache.init (sizeTToInt (sliceSize capacity n.toNat))) }

/-- `Hash(key) % sliceNum_` (lines 201, 209): the shard index for a key.
`std::hash` is an environment-supplied pure function, passed here as
`hash`.  The C++ `%` converts `sliceNum_` to `size_t`; with
`sliceNum_ > 0` that conversion is the identity. -/
def KHashFifoCache.sliceIndexOf (hash : Key → Nat) (c : KHashFifoCache Key Value) (key : Key) :
    Nat :=
  hash key % c.sliceNum.toNat

/-- Sharded `put(key, value)` (lines 198-203): route to
`Hash(key) % sliceNum_` and delegate. -/
def KHashFifoCache.put [Inhabited Key] (hash : Key → Nat) (c : KHashFifoCache Key Value)
    (key : Key) (value : Value) : KHashFifoCache Key Value :=
  let sliceIndex := c.sliceIndexOf hash key
  { c with fifoSliceCaches := sliceModify (fun s => s.put key value) sliceIndex c.fifoSliceCaches }

/-- Sharded `bool get(Key key, Value& value)` (lines 206-211): route to
`Hash(key) % sliceNum_` and delegate. -/
def KHashFifoCache.get (hash : Key → Nat) (c : KHashFifoCache Key Value) (key : Key)
    (value : Value) : Bool × Value :=
  let sliceIndex := c.sliceIndexOf hash key
  (sliceGet c.fifoSliceCaches sliceIndex).get key value

/-- Sharded single-argument `Value get(Key key)` (lines 214-219). -/
def KHashFifoCache.get' [Inhabited Value] (hash : Key → Nat) (c : KHashFifoCache Key Value)
    (key : Key) : Value :=
  (c.get hash key (default : Value)).2

/-! ### Association-list and queue lemmas -/

theorem mapFind_isSome_iff {m : List (Key × Value)} {k : Key} :
    (mapFind k m).isSome ↔ k ∈ m.map Prod.fst := by
  induction m with
  | nil => simp [mapFind]
  | cons p rest ih =>
    by_cases h : p.1 = k
    · simp [mapFind, h]
    · simp only [mapFind, if_neg h, List.map_cons, List.mem_cons]
      rw [ih]
      constructor
      · exact Or.inr
      · rintro (hh | hh)
        · exact absurd hh.symm h
        · exact hh

theorem mapFind_eq_none_iff {m : List (Key × Value)} {k : Key} :
    mapFind k m = none ↔ k ∉ m.map Prod.fst := by
  rw [← mapFind_isSome_iff, Option.isSome_iff_ne_none]
  tauto

theorem map_fst_mapSet {m : List (Key × Value)} {k : Key} {v : Value} :
    (mapSet k v m).map Prod.fst = m.map Prod.fst := by
  induction m with
  | nil => rfl
  | cons p rest ih =>
    by_cases h : p.1 = k <;> simp [mapSet, h, ih]

theorem length_mapSet {m : List (Key × Value)} {k : Key} {v : Value} :
    (mapSet k v m).length = m.length := by
  induction m with
  | nil => rfl
  | cons p rest ih =>
    by_cases h : p.1 = k <;> simp [mapSet, h, ih]

theorem mapFind_mapSet_self {m : List (Key × Value)} {k : Key} {v : Value}
    (h : (mapFind k m).isSome) : mapFind k (mapSet k v m) = some v := by
  induction m with
  | nil => simp [mapFind] at h
  | cons p rest ih =>
    by_cases hp : p.1 = k
    · simp [mapSet, mapFind, hp]
    · simp [mapFind, hp] at h
      simp [mapSet, mapFind, hp, ih h]

theorem mapFind_mapSet_ne {m : List (Key × Value)} {k k' : Key} {v : Value}
    (h : k' ≠ k) : mapFind k' (mapSet k v m) = mapFind k' m := by
  induction m with
  | nil => rfl
  | cons p rest ih =>
    simp only [mapSet]
    by_cases hp : p.1 = k
    · rw [if_pos hp]
      have h1 : ¬((k, v).1 = k') := fun hh => h hh.symm
      have h2 : ¬(p.1 = k') := fun hh => h (hp.symm.trans hh).symm
      simp only [mapFind]
      rw [if_neg h1, if_neg h2]
    · rw [if_neg hp]
      simp only [mapFind]
      by_cases hq : p.1 = k'
      · rw [if_pos hq, if_pos hq]
      · rw [if_neg hq, if_neg hq, ih]

theorem map_fst_mapErase {m : List (Key × Value)} {k : Key} :
    (mapErase k m).map Prod.fst = orderErase k (m.map Prod.fst) := by
  induction m with
  | nil => rfl
  | cons p rest ih =>
    by_cases h : p.1 = k <;> simp [mapErase, orderErase, h, ih]

theorem mapFind_mapErase_ne {m : List (Key × Value)} {k k' : Key}
    (h : k' ≠ k) : mapFind k' (mapErase k m) = mapFind k' m := by
  induction m with
  | nil => rfl
  | cons p rest ih =>
    simp only [mapErase]
    by_cases hp : p.1 = k
    · rw [if_pos hp]
      have h2 : ¬(p.1 = k') := fun hh => h (hp.symm.trans hh).symm
      conv_rhs => simp only [mapFind]
      rw [if_neg h2]
    · rw [if_neg hp]
      simp only [mapFind]
      by_cases hq : p.1 = k'
      · rw [if_pos hq, if_pos hq]
      · rw [if_neg hq, if_neg hq, ih]

theorem mapErase_cons_self {m : List (Key × Value)} {k : Key} {v : Value} :
    mapErase k ((k, v) :: m) = m := by
  simp [mapErase]

theorem length_mapErase_le {m : List (Key × Value)} {k : Key} :
    (mapErase k m).length ≤ m.length := by
  induction m with
  | nil => simp [mapErase]
  | cons p rest ih =>
    by_cases h : p.1 = k <;> simp [mapErase, h] <;> omega

theorem length_mapErase_of_isSome {m : List (Key × Value)} {k : Key}
    (h : (mapFind k m).isSome) : (mapErase k m).length + 1 = m.length := by
  induction m with
  | nil => simp [mapFind] at h
  | cons p rest ih =>
    by_cases hp : p.1 = k
    · simp [mapErase, hp]
    · simp [mapFind, hp] at h
      simp [mapErase, hp, ih h]

theorem mapFind_append_of_none {m₁ m₂ : List (Key × Value)} {k : Key}
    (h : mapFind k m₁ = none) : mapFind k (m₁ ++ m₂) = mapFind k m₂ := by
  induction m₁ with
  | nil => rfl
  | cons p rest ih =>
    by_cases hp : p.1 = k
    · simp [mapFind, hp] at h
    · simp [mapFind, hp] at h ⊢
      exact ih h

theorem mapFind_append_of_isSome {m₁ m₂ : List (Key × Value)} {k : Key} {v : Value}
    (h : mapFind k m₁ = some v) : mapFind k (m₁ ++ m₂) = some v := by
  induction m₁ with
  | nil => simp [mapFind] at h
  | cons p rest ih =>
    by_cases hp : p.1 = k
    · simp [mapFind, hp] at h ⊢
      exact h
    · simp [mapFind, hp] at h ⊢
      exact ih h

theorem mapFind_of_mem_nodup {m : List (Key × Value)} {p : Key × Value}
    (hnd : (m.map Prod.fst).Nodup) (hmem : p ∈ m) : mapFind p.1 m = some p.2 := by
  induction m with
  | nil => simp at hmem
  | cons q rest ih =>
    simp only [List.map_cons, List.nodup_cons] at hnd
    rcases List.mem_cons.mp hmem with h | h
    · subst h
      simp [mapFind]
    · have hne : q.1 ≠ p.1 := by
        intro he
        exact hnd.1 (he ▸ List.mem_map_of_mem Prod.fst h)
      simp [mapFind, hne, ih hnd.2 h]

theorem orderErase_sublist {l : List Key} {k : Key} : (orderErase k l).Sublist l := by
  induction l with
  | nil => simp [orderErase]
  | cons k' rest ih =>
    by_cases h : k' = k
    · simpa [orderErase, h] using List.sublist_cons_self k' rest
    · simpa [orderErase, h] using ih.cons₂ k'

theorem orderErase_nodup {l : List Key} {k : Key} (h : l.Nodup) :
    (orderErase k l).Nodup := h.sublist orderErase_sublist

theorem not_mem_orderErase_self {l : List Key} {k : Key} (h : l.Nodup) :
    k ∉ orderErase k l := by
  induction l with
  | nil => simp [orderErase]
  | cons k' rest ih =>
    simp only [List.nodup_cons] at h
    by_cases hk : k' = k
    · subst hk
      simpa [orderErase] using h.1
    · simp only [orderErase, if_neg hk, List.mem_cons]
      rintro (h' | h')
      · exact hk h'.symm
      · exact ih h.2 h'

theorem mapFind_mapErase_self {m : List (Key × Value)} {k : Key}
    (hnd : (m.map Prod.fst).Nodup) : mapFind k (mapErase k m) = none := by
  rw [mapFind_eq_none_iff, map_fst_mapErase]
  exact not_mem_orderErase_self hnd

theorem mapFind_mapErase_eq_none {m : List (Key × Value)} {k j : Key}
    (h : mapFind k m = none) : mapFind k (mapErase j m) = none := by
  rw [mapFind_eq_none_iff, map_fst_mapErase]
  rw [mapFind_eq_none_iff] at h
  intro hmem
  exact h (orderErase_sublist.subset hmem)

theorem mapErase_eq_tail {m : List (Key × Value)} {k : Key} {t : List Key}
    (h : m.map Prod.fst = k :: t) : mapErase k m = m.tail := by
  cases m with
  | nil => simp at h
  | cons p rest =>
    simp only [List.map_cons, List.cons.injEq] at h
    simp [mapErase, h.1]

/-! ### The queue/index agreement invariant -/

/-- The per-shard structural invariant: the keys of `nodeMap_`, listed in
insertion order, are exactly the queue between the sentinels, and no key
occurs twice. -/
def Inv (st : KFifoCache Key Value) : Prop :=
  st.nodeMap.map Prod.fst = st.order ∧ st.order.Nodup

theorem Inv_init (capacity : Int) : Inv (KFifoCache.init capacity : KFifoCache Key Value) := by
  constructor <;> simp [KFifoCache.init]

theorem capacity_put [Inhabited Key] (st : KFifoCache Key Value) (k : Key) (v : Value) :
    (st.put k v).capacity = st.capacity := by
  unfold KFifoCache.put KFifoCache.addNewNode KFifoCache.enqueueNode
    KFifoCache.updateExistingNode KFifoCache.evictOldest
  split
  · rfl
  · split
    · rfl
    · dsimp only
      split <;> [skip; rfl]
      split <;> rfl

theorem capacity_remove (st : KFifoCache Key Value) (k : Key) :
    (st.remove k).capacity = st.capacity := by
  unfold KFifoCache.remove
  split <;> rfl

theorem Inv_put [Inhabited Key] {st : KFifoCache Key Value} (h : Inv st) (k : Key) (v : Value) :
    Inv (st.put k v) := by
  obtain ⟨hkeys, hnd⟩ := h
  unfold KFifoCache.put
  split
  · exact ⟨hkeys, hnd⟩
  · split
    · exact ⟨by simpa [KFifoCache.updateExistingNode, map_fst_mapSet] using hkeys,
        by simpa [KFifoCache.updateExistingNode] using hnd⟩
    · rename_i hcap hnotin
      have hfresh : k ∉ st.order := by
        rw [← hkeys, ← mapFind_eq_none_iff]
        simpa [Option.isSome_iff_ne_none] using hnotin
      unfold KFifoCache.addNewNode KFifoCache.enqueueNode
      dsimp only
      split
      · rename_i hfull
        unfold KFifoCache.evictOldest
        cases horder : st.order with
        | nil =>
          rw [horder] at hkeys
          have hm : st.nodeMap = [] := by
            cases hmm : st.nodeMap with
            | nil => rfl
            | cons p r => rw [hmm] at hkeys; simp at hkeys
          constructor
          · simp [hm, mapErase]
          · simp [hm, mapErase]
        | cons o rest =>
          have herase : mapErase o st.nodeMap = st.nodeMap.tail :=
            mapErase_eq_tail (by rw [hkeys, horder])
          have htailkeys : st.nodeMap.tail.map Prod.fst = rest := by
            cases hm : st.nodeMap with
            | nil => rw [hm] at hkeys; rw [horder] at hkeys; simp at hkeys
            | cons p r =>
              rw [hm] at hkeys
              rw [horder] at hkeys
              simp only [List.map_cons, List.cons.injEq] at hkeys
              simp [hkeys.2]
          rw [horder] at hnd
          simp only [List.nodup_cons] at hnd
          constructor
          · simp [herase, htailkeys]
          · rw [horder] at hfresh
            simp only [List.mem_cons, not_or] at hfresh
            simp only [List.nodup_append, List.nodup_cons]
            refine ⟨hnd.2, by simp, ?_⟩
            intro a ha hb
            simp only [List.mem_singleton] at hb
            subst hb
            exact hfresh.2 ha
      · constructor
        · simp [hkeys]
        · simp only [List.nodup_append, List.nodup_cons]
          refine ⟨hnd, by simp, ?_⟩
          intro a ha hb
          simp only [List.mem_singleton] at hb
          subst hb
          exact hfresh ha

theorem Inv_remove {st : KFifoCache Key Value} (h : Inv st) (k : Key) :
    Inv (st.remove k) := by
  obtain ⟨hkeys, hnd⟩ := h
  unfold KFifoCache.remove
  split
  · exact ⟨by simp [map_fst_mapErase, hkeys], orderErase_nodup hnd⟩
  · exact ⟨hkeys, hnd⟩

/-- Entry-count bound: the map never holds more than `max capacity 0`
entries. -/
def SizeOk (st : KFifoCache Key Value) : Prop :=
  (st.nodeMap.length : Int) ≤ max st.capacity 0

theorem SizeOk_put [Inhabited Key] {st : KFifoCache Key Value} (hinv : Inv st) (hsz : SizeOk st)
    (k : Key) (v : Value) : SizeOk (st.put k v) := by
  obtain ⟨hkeys, _⟩ := hinv
  unfold SizeOk at hsz ⊢
  rw [capacity_put]
  unfold KFifoCache.put
  split
  · exact hsz
  · rename_i hcap
    split
    · simpa [KFifoCache.updateExistingNode, length_mapSet] using hsz
    · rename_i hnotin
      unfold KFifoCache.addNewNode KFifoCache.enqueueNode
      dsimp only
      split
      · rename_i hfull
        unfold KFifoCache.evictOldest
        cases horder : st.order with
        | nil =>
          rw [horder] at hkeys
          have hm : st.nodeMap = [] := by
            cases hmm : st.nodeMap with
            | nil => rfl
            | cons p r => rw [hmm] at hkeys; simp at hkeys
          simp only [hm, mapErase, List.nil_append, List.length_cons, List.length_nil]
          omega
        | cons o rest =>
          have hsome : (mapFind o st.nodeMap).isSome := by
            rw [mapFind_isSome_iff, hkeys, horder]
            simp
          have hlen := length_mapErase_of_isSome hsome
          simp only [List.length_append, List.length_cons, List.length_nil]
          push_cast
          omega
      · rename_i hnotfull
        simp only [List.length_append, List.length_cons, List.length_nil]
        push_cast
        push_cast at hnotfull
        omega

theorem SizeOk_remove {st : KFifoCache Key Value} (hsz : SizeOk st) (k : Key) :
    SizeOk (st.remove k) := by
  unfold SizeOk at hsz ⊢
  rw [capacity_remove]
  unfold KFifoCache.remove
  split
  · have h3 : (mapErase k st.nodeMap).length ≤ st.nodeMap.length := length_mapErase_le
    dsimp only
    omega
  · exact hsz

/-- Every reachable state satisfies the agreement invariant and the size
bound. -/
theorem reachable_inv [Inhabited Key] {st : KFifoCache Key Value} (h : Reachable st) :
    Inv st ∧ SizeOk st := by
  induction h with
  | init capacity =>
    refine ⟨Inv_init capacity, ?_⟩
    simp [SizeOk, KFifoCache.init]
  | put k v _ ih => exact ⟨Inv_put ih.1 k v, SizeOk_put ih.1 ih.2 k v⟩
  | remove k _ ih => exact ⟨Inv_remove ih.1 k, SizeOk_remove ih.2 k⟩

/-! ### Characterizations of the `put` branches -/

theorem put_of_capacity_nonpos [Inhabited Key] {st : KFifoCache Key Value}
    (h : st.capacity ≤ 0) (k : Key) (v : Value) : st.put k v = st := by
  unfold KFifoCache.put
  rw [if_pos h]

theorem put_update [Inhabited Key] {st : KFifoCache Key Value} {k : Key} {w : Value}
    (hcap : 0 < st.capacity) (h : mapFind k st.nodeMap = some w) (v : Value) :
    st.put k v = { st with nodeMap := mapSet k v st.nodeMap } := by
  unfold KFifoCache.put KFifoCache.updateExistingNode
  rw [if_neg (show ¬st.capacity ≤ 0 by omega), if_pos (by simp [h])]

theorem put_fresh_lt [Inhabited Key] {st : KFifoCache Key Value} {k : Key}
    (hcap : 0 < st.capacity) (h : mapFind k st.nodeMap = none)
    (hlt : (st.nodeMap.length : Int) < st.capacity) (v : Value) :
    st.put k v = { st with order := st.order ++ [k], nodeMap := st.nodeMap ++ [(k, v)] } := by
  unfold KFifoCache.put KFifoCache.addNewNode KFifoCache.enqueueNode
  rw [if_neg (show ¬st.capacity ≤ 0 by omega), if_neg (by simp [h])]
  dsimp only
  rw [if_neg (show ¬(st.nodeMap.length : Int) ≥ st.capacity by omega)]

theorem put_fresh_full [Inhabited Key] {st : KFifoCache Key Value} {k o : Key}
    {rest : List Key} (hcap : 0 < st.capacity) (h : mapFind k st.nodeMap = none)
    (hfull : (st.nodeMap.length : Int) ≥ st.capacity) (horder : st.order = o :: rest)
    (v : Value) :
    st.put k v = { capacity := st.capacity, order := rest ++ [k],
                   nodeMap := mapErase o st.nodeMap ++ [(k, v)] } := by
  unfold KFifoCache.put KFifoCache.addNewNode KFifoCache.enqueueNode KFifoCache.evictOldest
  rw [if_neg (show ¬st.capacity ≤ 0 by omega), if_neg (by simp [h])]
  dsimp only
  rw [if_pos hfull, horder]

theorem get_hit {st : KFifoCache Key Value} {k : Key} {w : Value}
    (h : mapFind k st.nodeMap = some w) (d : Value) : st.get k d = (true, w) := by
  unfold KFifoCache.get
  rw [h]

theorem get_miss {st : KFifoCache Key Value} {k : Key}
    (h : mapFind k st.nodeMap = none) (d : Value) : st.get k d = (false, d) := by
  unfold KFifoCache.get
  rw [h]

theorem getLast?_append_singleton {α : Type} {l : List α} {a : α} :
    (l ++ [a]).getLast? = some a := by
  induction l with
  | nil => rfl
  | cons b rest ih =>
    cases rest with
    | nil => rfl
    | cons c rest2 =>
      simp only [List.cons_append] at ih ⊢
      rw [List.getLast?_cons_cons]
      simpa using ih

theorem mapFind_evictOldest_eq_none [Inhabited Key] {st : KFifoCache Key Value} {k : Key}
    (h : mapFind k st.nodeMap = none) : mapFind k st.evictOldest.nodeMap = none := by
  unfold KFifoCache.evictOldest
  cases st.order with
  | nil => exact mapFind_mapErase_eq_none h
  | cons o rest => exact mapFind_mapErase_eq_none h

/-- After any `put` on a cache of positive capacity, the key is a hit and
returns the value just stored. -/
theorem get_after_put [Inhabited Key] {st : KFifoCache Key Value} (hcap : 0 < st.capacity)
    (k : Key) (v d : Value) : (st.put k v).get k d = (true, v) := by
  cases hfind : mapFind k st.nodeMap with
  | some w =>
    rw [put_update hcap hfind v]
    exact get_hit (by exact mapFind_mapSet_self (by simp [hfind])) d
  | none =>
    by_cases hfull : (st.nodeMap.length : Int) ≥ st.capacity
    · unfold KFifoCache.put KFifoCache.addNewNode KFifoCache.enqueueNode
      rw [if_neg (show ¬st.capacity ≤ 0 by omega), if_neg (by simp [hfind])]
      dsimp only
      rw [if_pos hfull]
      refine get_hit ?_ d
      dsimp only
      rw [mapFind_append_of_none (mapFind_evictOldest_eq_none hfind)]
      simp [mapFind]
    · rw [put_fresh_lt hcap hfind (by omega) v]
      refine get_hit ?_ d
      dsimp only
      rw [mapFind_append_of_none hfind]
      simp [mapFind]

/-- After any `put` of a key not currently present, the key sits at the
tail of the queue. -/
theorem put_fresh_last [Inhabited Key] {st : KFifoCache Key Value} (hcap : 0 < st.capacity)
    {k : Key} (hfind : mapFind k st.nodeMap = none) (v : Value) :
    (st.put k v).order.getLast? = some k := by
  unfold KFifoCache.put KFifoCache.addNewNode KFifoCache.enqueueNode
  rw [if_neg (show ¬st.capacity ≤ 0 by omega), if_neg (by simp [hfind])]
  dsimp only
  split <;> exact getLast?_append_singleton

theorem putAll_nil [Inhabited Key] (st : KFifoCache Key Value) : st.putAll [] = st := rfl

theorem putAll_cons [Inhabited Key] (st : KFifoCache Key Value) (p : Key × Value)
    (ps : List (Key × Value)) : st.putAll (p :: ps) = (st.put p.1 p.2).putAll ps := rfl

/-- Filling a cache with fresh distinct keys while within capacity just
appends them, in order, to both the queue and the map. -/
theorem putAll_fill [Inhabited Key] :
    ∀ (ps : List (Key × Value)) (st : KFifoCache Key Value),
      st.nodeMap.map Prod.fst = st.order →
      (ps.map Prod.fst).Nodup →
      (∀ p ∈ ps, p.1 ∉ st.order) →
      (st.nodeMap.length : Int) + ps.length ≤ st.capacity →
      st.putAll ps = { capacity := st.capacity, order := st.order ++ ps.map Prod.fst,
                       nodeMap := st.nodeMap ++ ps }
  | [], st, hkeys, _, _, _ => by simp [putAll_nil]
  | (k, v) :: ps, st, hkeys, hnd, hfresh, hlen => by
    simp only [List.length_cons] at hlen
    have hcap : 0 < st.capacity := by
      have : (0 : Int) ≤ st.nodeMap.length := by positivity
      have : (0 : Int) ≤ ps.length := by positivity
      omega
    have hfind : mapFind k st.nodeMap = none := by
      rw [mapFind_eq_none_iff, hkeys]
      exact hfresh (k, v) (List.mem_cons_self _ _)
    have hlt : (st.nodeMap.length : Int) < st.capacity := by
      have : (0 : Int) ≤ ps.length := by positivity
      omega
    rw [putAll_cons, put_fresh_lt hcap hfind hlt v]
    simp only [List.map_cons, List.nodup_cons] at hnd
    rw [putAll_fill ps _ (by simp [hkeys]) hnd.2 ?fresh ?len]
    case fresh =>
      intro p hp
      simp only [List.mem_append, List.mem_singleton, not_or]
      refine ⟨hfresh p (List.mem_cons_of_mem _ hp), ?_⟩
      intro he
      exact hnd.1 (he ▸ List.mem_map_of_mem Prod.fst hp)
    case len =>
      simp only [List.length_append, List.length_cons, List.length_nil]
      push_cast
      omega
    simp

/-! ### Shard-vector and capacity-splitting lemmas -/

theorem sliceModify_length {f : KFifoCache Key Value → KFifoCache Key Value} :
    ∀ {i : Nat} {cs : List (KFifoCache Key Value)}, (sliceModify f i cs).length = cs.length
  | i, [] => by cases i <;> rfl
  | 0, _ :: _ => rfl
  | _ + 1, c :: rest => by
    simpa [sliceModify] using sliceModify_length

theorem sliceGet_sliceModify_self {f : KFifoCache Key Value → KFifoCache Key Value} :
    ∀ {i : Nat} {cs : List (KFifoCache Key Value)}, i < cs.length →
      sliceGet (sliceModify f i cs) i = f (sliceGet cs i)
  | i, [], h => by simp at h
  | 0, c :: rest, _ => rfl
  | i + 1, c :: rest, h => by
    simpa [sliceModify, sliceGet] using sliceGet_sliceModify_self (by simpa using h)

theorem sliceGet_sliceModify_ne {f : KFifoCache Key Value → KFifoCache Key Value} :
    ∀ {i j : Nat} {cs : List (KFifoCache Key Value)}, j ≠ i →
      sliceGet (sliceModify f i cs) j = sliceGet cs j
  | i, j, [], _ => by cases i <;> rfl
  | 0, j, c :: rest, h => by
    cases j with
    | zero => exact absurd rfl h
    | succ j => rfl
  | i + 1, j, c :: rest, h => by
    cases j with
    | zero => rfl
    | succ j =>
      simpa [sliceModify, sliceGet] using sliceGet_sliceModify_ne (fun he => h (by omega))

theorem sliceGet_mem {cs : List (KFifoCache Key Value)} {i : Nat} (h : i < cs.length) :
    sliceGet cs i ∈ cs := by
  unfold sliceGet
  rw [List.getD_eq_getElem _ _ h]
  exact List.getElem_mem h

/-- Below 2^31 the `size_t` to `int` narrowing is the identity. -/
theorem sizeTToInt_of_lt {v : Nat} (h : v < 2 ^ 31) : sizeTToInt v = (v : Int) := by
  unfold sizeTToInt
  rw [Nat.mod_eq_of_lt (by omega), if_pos h]

/-- `sliceSize capacity n` is exactly the ceiling of `capacity / n`:
it is an upper approximation (`capacity ≤ n * sliceSize`) and the least
one. -/
theorem sliceSize_spec {T n : Nat} (h : 0 < n) :
    T ≤ n * sliceSize T n ∧ ∀ s : Nat, T ≤ n * s → sliceSize T n ≤ s := by
  constructor
  · have h1 : n * ((T + n - 1) / n) + (T + n - 1) % n = T + n - 1 := Nat.div_add_mod _ _
    have h2 : (T + n - 1) % n < n := Nat.mod_lt _ h
    unfold sliceSize
    obtain ⟨P, hP⟩ : ∃ P, n * ((T + n - 1) / n) = P := ⟨_, rfl⟩
    obtain ⟨R, hR⟩ : ∃ R, (T + n - 1) % n = R := ⟨_, rfl⟩
    rw [hP, hR] at h1
    rw [hR] at h2
    rw [hP]
    omega
  · intro s hs
    unfold sliceSize
    rw [Nat.div_le_iff_le_mul_add_pred h]
    obtain ⟨P, hP⟩ : ∃ P, n * s = P := ⟨_, rfl⟩
    rw [hP] at hs ⊢
    omega

theorem putAll_append [Inhabited Key] (st : KFifoCache Key Value)
    (ps qs : List (Key × Value)) : st.putAll (ps ++ qs) = (st.putAll ps).putAll qs := by
  unfold KFifoCache.putAll
  rw [List.foldl_append]

/-! ### Claim theorems -/

/-- C4: in every state reachable by any sequence of `put`/`get`/`remove`
from construction, a key is present in the index `nodeMap_` exactly when
its node is linked into the queue between the sentinels; since
reachability is closed under `put` and `remove` (and `get` writes
nothing), every operation preserves this agreement. -/
theorem index_queue_agreement [Inhabited Key] {st : KFifoCache Key Value}
    (h : Reachable st) (k : Key) : (mapFind k st.nodeMap).isSome ↔ k ∈ st.order := by
  rw [mapFind_isSome_iff, (reachable_inv h).1.1]

theorem index_queue_agreement_witness :
    (mapFind 2 ((((KFifoCache.init 3 : KFifoCache Nat Nat).put 1 10).put 2 20).remove
        1).nodeMap).isSome ↔
      2 ∈ ((((KFifoCache.init 3 : KFifoCache Nat Nat).put 1 10).put 2 20).remove 1).order :=
  index_queue_agreement
    (Reachable.remove 1 (Reachable.put 2 20 (Reachable.put 1 10 (Reachable.init 3)))) 2

/-- C2: on a reachable cache of capacity at least 1, after any further
`put` the entry count is still at most the capacity, and a single `put`
removes at most one of the previously present entries (the optional
evicted key `e`). -/
theorem bounded_size_single_eviction [Inhabited Key] {st : KFifoCache Key Value}
    (h : Reachable st) (hcap : 1 ≤ st.capacity) (k : Key) (v : Value) :
    ((st.put k v).nodeMap.length : Int) ≤ st.capacity ∧
      ∃ e : Option Key, ∀ j ∈ st.order, j ∈ (st.put k v).order ∨ some j = e := by
  constructor
  · have h2 := (reachable_inv (Reachable.put k v h)).2
    unfold SizeOk at h2
    rw [capacity_put, max_eq_left (show (0 : Int) ≤ st.capacity by omega)] at h2
    exact h2
  · cases hfind : mapFind k st.nodeMap with
    | some w =>
      refine ⟨none, fun j hj => Or.inl ?_⟩
      rw [put_update (by omega) hfind v]
      exact hj
    | none =>
      by_cases hfull : (st.nodeMap.length : Int) ≥ st.capacity
      · cases horder : st.order with
        | nil =>
          refine ⟨none, fun j hj => ?_⟩
          simp at hj
        | cons o rest =>
          refine ⟨some o, fun j hj => ?_⟩
          rw [put_fresh_full (by omega) hfind hfull horder v]
          rcases List.mem_cons.mp hj with he | hm
          · exact Or.inr (by rw [he])
          · exact Or.inl (by simp [hm])
      · refine ⟨none, fun j hj => Or.inl ?_⟩
        rw [put_fresh_lt (by omega) hfind (by omega) v]
        simp [hj]

theorem bounded_size_single_eviction_witness :
    ((((((KFifoCache.init 2 : KFifoCache Nat Nat).put 1 10).put 2 20).put 3
          30).nodeMap.length : Int) ≤
        (((KFifoCache.init 2 : KFifoCache Nat Nat).put 1 10).put 2 20).capacity) ∧
      ∃ e : Option Nat, ∀ j ∈ (((KFifoCache.init 2 : KFifoCache Nat Nat).put 1 10).put 2 20).order,
        j ∈ ((((KFifoCache.init 2 : KFifoCache Nat Nat).put 1 10).put 2 20).put 3 30).order ∨
          some j = e :=
  bounded_size_single_eviction
    (Reachable.put 2 20 (Reachable.put 1 10 (Reachable.init 2))) (by decide) 3 30

/-- C5: `get` is read-only — the embedding gives it no state output
because the source body writes no field — and returns `(true, stored
value)` on a hit, `(false, the caller's value untouched)` on a miss; the
single-argument overload returns the default-constructed value on a
miss. -/
theorem get_readonly_spec [Inhabited Value] (st : KFifoCache Key Value) (k : Key)
    (vin : Value) :
    (∀ w, mapFind k st.nodeMap = some w → st.get k vin = (true, w)) ∧
      (mapFind k st.nodeMap = none → st.get k vin = (false, vin)) ∧
      (mapFind k st.nodeMap = none → st.get' k = (default : Value)) := by
  refine ⟨fun w h => get_hit h vin, fun h => get_miss h vin, fun h => ?_⟩
  unfold KFifoCache.get'
  rw [get_miss h]

theorem get_readonly_spec_witness :
    ((KFifoCache.init 2 : KFifoCache Nat Nat).put 1 10).get 1 5 = (true, 10) ∧
      ((KFifoCache.init 2 : KFifoCache Nat Nat).put 1 10).get 2 5 = (false, 5) ∧
      ((KFifoCache.init 2 : KFifoCache Nat Nat).put 1 10).get' 2 = 0 :=
  ⟨(get_readonly_spec _ 1 5).1 10 (by decide),
    (get_readonly_spec _ 2 5).2.1 (by decide),
    (get_readonly_spec ((KFifoCache.init 2 : KFifoCache Nat Nat).put 1 10) 2 5).2.2 (by decide)⟩

/-- C10: on a miss the two-result `get` returns `false` and hands back
the caller-supplied value exactly as it was, never overwriting it with a
default; only the single-argument overload substitutes the
default-constructed value. -/
theorem get_miss_preserves_argument [Inhabited Value] (st : KFifoCache Key Value) (k : Key)
    (vin : Value) (h : mapFind k st.nodeMap = none) :
    st.get k vin = (false, vin) ∧ st.get' k = (default : Value) := by
  refine ⟨get_miss h vin, ?_⟩
  unfold KFifoCache.get'
  rw [get_miss h]

theorem get_miss_preserves_argument_witness :
    ((KFifoCache.init 2 : KFifoCache Nat Nat).put 1 10).get 2 7 = (false, 7) ∧
      ((KFifoCache.init 2 : KFifoCache Nat Nat).put 1 10).get' 2 = 0 :=
  get_miss_preserves_argument _ 2 7 (by decide)

/-- C7: constructing with `capacity ≤ 0` succeeds and yields an inert
cache: `put` is a no-op on every state of non-positive capacity, any
sequence of `put` calls leaves the constructed cache exactly in its
initial (empty) state, and `get` always misses, the two-result form
handing the caller's value back and the single-argument form returning
the default. -/
theorem degenerate_capacity_inert [Inhabited Key] [Inhabited Value] (c : Int) (hc : c ≤ 0)
    (ps : List (Key × Value)) (k : Key) (v d : Value) :
    (∀ st : KFifoCache Key Value, st.capacity ≤ 0 → st.put k v = st) ∧
      (KFifoCache.init c : KFifoCache Key Value).putAll ps = KFifoCache.init c ∧
      ((KFifoCache.init c : KFifoCache Key Value).putAll ps).get k d = (false, d) ∧
      ((KFifoCache.init c : KFifoCache Key Value).putAll ps).get' k = (default : Value) := by
  have hall : ∀ qs : List (Key × Value),
      (KFifoCache.init c : KFifoCache Key Value).putAll qs = KFifoCache.init c := by
    intro qs
    induction qs with
    | nil => rfl
    | cons p rest ih =>
      rw [putAll_cons, put_of_capacity_nonpos hc p.1 p.2]
      exact ih
  have hmiss : mapFind k ((KFifoCache.init c : KFifoCache Key Value).putAll ps).nodeMap = none := by
    rw [hall ps]
    rfl
  refine ⟨fun st hst => put_of_capacity_nonpos hst k v, hall ps, get_miss hmiss d, ?_⟩
  unfold KFifoCache.get'
  rw [get_miss hmiss]

theorem degenerate_capacity_inert_witness :
    (({ capacity := -3, order := [9], nodeMap := [(9, 90)] } : KFifoCache Nat Nat).put 5 50 =
        { capacity := -3, order := [9], nodeMap := [(9, 90)] }) ∧
      (KFifoCache.init 0 : KFifoCache Nat Nat).putAll [(1, 10), (2, 20)] = KFifoCache.init 0 ∧
      ((KFifoCache.init 0 : KFifoCache Nat Nat).putAll [(1, 10), (2, 20)]).get 5 7 = (false, 7) ∧
      ((KFifoCache.init 0 : KFifoCache Nat Nat).putAll [(1, 10), (2, 20)]).get' 5 = 0 :=
  ⟨(degenerate_capacity_inert 0 (by decide) ([(1, 10), (2, 20)] : List (Nat × Nat)) 5 50 7).1 _
      (by decide),
    (degenerate_capacity_inert 0 (by decide) [(1, 10), (2, 20)] 5 50 7).2.1,
    (degenerate_capacity_inert 0 (by decide) [(1, 10), (2, 20)] 5 50 7).2.2.1,
    (degenerate_capacity_inert 0 (by decide) [(1, 10), (2, 20)] 5 50 7).2.2.2⟩

/-- C6: on a reachable cache, `remove` of a present key unlinks it from
the queue and erases it from the index so that `get` then misses;
`remove` of an absent key leaves the state unchanged; and a subsequent
`put` of the removed key (capacity permitting) re-inserts it at the
current tail of the queue, where `get` finds the new value. -/
theorem remove_spec [Inhabited Key] {st : KFifoCache Key Value} (h : Reachable st)
    (k : Key) (v d : Value) :
    ((mapFind k st.nodeMap).isSome →
        k ∉ (st.remove k).order ∧ mapFind k (st.remove k).nodeMap = none ∧
          (st.remove k).get k d = (false, d)) ∧
      (mapFind k st.nodeMap = none → st.remove k = st) ∧
      (1 ≤ st.capacity →
        ((st.remove k).put k v).order.getLast? = some k ∧
          ((st.remove k).put k v).get k d = (true, v)) := by
  obtain ⟨⟨hkeys, hnd⟩, _⟩ := reachable_inv h
  have hmapnd : (st.nodeMap.map Prod.fst).Nodup := by
    rw [hkeys]
    exact hnd
  have hremnone : (mapFind k st.nodeMap).isSome →
      mapFind k (st.remove k).nodeMap = none := by
    intro hsome
    unfold KFifoCache.remove
    rw [if_pos hsome]
    exact mapFind_mapErase_self hmapnd
  refine ⟨?_, ?_, ?_⟩
  · intro hsome
    refine ⟨?_, hremnone hsome, get_miss (hremnone hsome) d⟩
    unfold KFifoCache.remove
    rw [if_pos hsome]
    exact not_mem_orderErase_self hnd
  · intro hnone
    unfold KFifoCache.remove
    rw [if_neg (by simp [hnone])]
  · intro hcap
    have hnone : mapFind k (st.remove k).nodeMap = none := by
      cases hfind : mapFind k st.nodeMap with
      | some w => exact hremnone (by simp [hfind])
      | none =>
        unfold KFifoCache.remove
        rw [if_neg (by simp [hfind])]
        exact hfind
    have hc' : 0 < (st.remove k).capacity := by
      rw [capacity_remove]
      omega
    exact ⟨put_fresh_last hc' hnone v, get_after_put hc' k v d⟩

theorem remove_spec_witness :
    (1 ∉ ((((KFifoCache.init 2 : KFifoCache Nat Nat).put 1 10).put 2 20).remove 1).order ∧
        mapFind 1 ((((KFifoCache.init 2 : KFifoCache Nat Nat).put 1 10).put 2 20).remove
            1).nodeMap = none ∧
        ((((KFifoCache.init 2 : KFifoCache Nat Nat).put 1 10).put 2 20).remove 1).get 1 0 =
          (false, 0)) ∧
      ((((KFifoCache.init 2 : KFifoCache Nat Nat).put 1 10).put 2 20).remove 5 =
        (((KFifoCache.init 2 : KFifoCache Nat Nat).put 1 10).put 2 20)) ∧
      (((((KFifoCache.init 2 : KFifoCache Nat Nat).put 1 10).put 2 20).remove 1).put 1
            99).order.getLast? = some 1 ∧
      (((((KFifoCache.init 2 : KFifoCache Nat Nat).put 1 10).put 2 20).remove 1).put 1
          99).get 1 0 = (true, 99) :=
  ⟨(remove_spec (Reachable.put 2 20 (Reachable.put 1 10 (Reachable.init 2))) 1 99 0).1
      (by decide),
    (remove_spec (Reachable.put 2 20 (Reachable.put 1 10 (Reachable.init 2))) 5 99 0).2.1
      (by decide),
    ((remove_spec (Reachable.put 2 20 (Reachable.put 1 10 (Reachable.init 2))) 1 99 0).2.2
      (by decide)).1,
    ((remove_spec (Reachable.put 2 20 (Reachable.put 1 10 (Reachable.init 2))) 1 99 0).2.2
      (by decide)).2⟩

/-- C1: when `put` sees a new key while the entry count has reached the
(positive) capacity, exactly the node at the head of the queue is
evicted — removed from both the queue and the index — before the new
entry is appended at the tail of the queue and inserted into the index;
consequently, inserting `C + 1` distinct keys in order into an initially
empty cache of capacity `C` leaves the first key absent and all the
later keys present. -/
theorem fifo_eviction [Inhabited Key] [Inhabited Value] :
    (∀ (st : KFifoCache Key Value) (k o : Key) (rest : List Key) (v : Value),
        0 < st.capacity → mapFind k st.nodeMap = none →
        (st.nodeMap.length : Int) ≥ st.capacity → st.order = o :: rest →
        st.put k v = { capacity := st.capacity, order := rest ++ [k],
                       nodeMap := mapErase o st.nodeMap ++ [(k, v)] }) ∧
      (∀ (k0 : Key) (v0 : Value) (midp : List (Key × Value)) (kz : Key) (vz d : Value),
        (k0 :: (midp.map Prod.fst ++ [kz])).Nodup →
        ((KFifoCache.init ((midp.length : Int) + 1) : KFifoCache Key Value).putAll
            ((k0, v0) :: (midp ++ [(kz, vz)]))).get k0 d = (false, d) ∧
          ∀ p ∈ midp ++ [(kz, vz)],
            ((KFifoCache.init ((midp.length : Int) + 1) : KFifoCache Key Value).putAll
                ((k0, v0) :: (midp ++ [(kz, vz)]))).get p.1 d = (true, p.2)) := by
  constructor
  · exact fun st k o rest v hcap hfind hfull horder => put_fresh_full hcap hfind hfull horder v
  · intro k0 v0 midp kz vz d hnd
    obtain ⟨hk0, hnd'⟩ := List.nodup_cons.mp hnd
    have hmidnd : (midp.map Prod.fst).Nodup := (List.nodup_append.mp hnd').1
    have hdisj := (List.nodup_append.mp hnd').2.2
    have hkz : kz ∉ midp.map Prod.fst := fun hm => hdisj hm (List.mem_singleton_self kz)
    have hk0kz : k0 ≠ kz := fun he => hk0 (List.mem_append_right _ (by simp [he]))
    have hk0mid : k0 ∉ midp.map Prod.fst := fun hm => hk0 (List.mem_append_left _ hm)
    have hsplit : ((k0, v0) :: (midp ++ [(kz, vz)])) = (((k0, v0) :: midp) ++ [(kz, vz)]) := by
      simp
    rw [hsplit, putAll_append]
    have hfill := putAll_fill ((k0, v0) :: midp)
      (KFifoCache.init ((midp.length : Int) + 1) : KFifoCache Key Value) rfl
      (by
        simp only [List.map_cons, List.nodup_cons]
        exact ⟨hk0mid, hmidnd⟩)
      (fun p hp => by simp [KFifoCache.init])
      (by
        simp only [KFifoCache.init, List.length_cons, List.length_nil]
        push_cast
        omega)
    rw [hfill]
    simp only [KFifoCache.init, List.nil_append, List.map_cons]
    rw [putAll_cons, putAll_nil]
    have hput :
        ({ capacity := (midp.length : Int) + 1, order := k0 :: midp.map Prod.fst,
           nodeMap := (k0, v0) :: midp } : KFifoCache Key Value).put kz vz =
        { capacity := (midp.length : Int) + 1, order := midp.map Prod.fst ++ [kz],
          nodeMap := midp ++ [(kz, vz)] } := by
      rw [put_fresh_full
        (by positivity)
        (by
          rw [mapFind_eq_none_iff]
          simp only [List.map_cons, List.mem_cons, not_or]
          exact ⟨fun he => hk0kz he.symm, hkz⟩)
        (by
          simp only [List.length_cons]
          push_cast
          omega)
        rfl vz]
      rw [mapErase_cons_self]
    rw [hput]
    constructor
    · refine get_miss ?_ d
      dsimp only
      rw [mapFind_eq_none_iff]
      simp only [List.map_append, List.map_cons, List.map_nil]
      exact hk0
    · intro p hp
      refine get_hit (mapFind_of_mem_nodup ?_ hp) d
      simpa only [List.map_append, List.map_cons, List.map_nil] using hnd'

theorem fifo_eviction_witness :
    (({ capacity := 2, order := [5, 6], nodeMap := [(5, 50), (6, 60)] } : KFifoCache Nat Nat).put
          7 70 =
        { capacity := 2, order := [6] ++ [7], nodeMap := mapErase 5 [(5, 50), (6, 60)] ++ [(7, 70)] }) ∧
      ((KFifoCache.init (((([(2, 20)] : List (Nat × Nat)).length : Int)) + 1) :
            KFifoCache Nat Nat).putAll ((1, 10) :: ([(2, 20)] ++ [(3, 30)]))).get 1 0 =
        (false, 0) ∧
      ((KFifoCache.init (((([(2, 20)] : List (Nat × Nat)).length : Int)) + 1) :
            KFifoCache Nat Nat).putAll ((1, 10) :: ([(2, 20)] ++ [(3, 30)]))).get 2 0 =
        (true, 20) ∧
      ((KFifoCache.init (((([(2, 20)] : List (Nat × Nat)).length : Int)) + 1) :
            KFifoCache Nat Nat).putAll ((1, 10) :: ([(2, 20)] ++ [(3, 30)]))).get 3 0 =
        (true, 30) :=
  ⟨fifo_eviction.1 _ 7 5 [6] 70 (by decide) (by decide) (by decide) rfl,
    (fifo_eviction.2 1 10 [(2, 20)] 3 30 0 (by decide)).1,
    (fifo_eviction.2 1 10 [(2, 20)] 3 30 0 (by decide)).2 (2, 20) (by decide),
    (fifo_eviction.2 1 10 [(2, 20)] 3 30 0 (by decide)).2 (3, 30) (by decide)⟩

/-- C3 counterexample: capacity 2; insert keys 1 then 2, update key 1
with 99, then insert key 3.  The claim predicts key 2 (called "the true
oldest") evicted and `get 1` returning 99; the code keeps key 2 with its
value 20 and evicts key 1 — the head of the queue, unmoved by the
update — so `get 1` misses. -/
theorem update_eviction_target_cex :
    ((((KFifoCache.init 2 : KFifoCache Nat Nat).putAll [(1, 10), (2, 20)]).put 1 99).put 3
          30).get 2 0 = (true, 20) ∧
      ((((KFifoCache.init 2 : KFifoCache Nat Nat).putAll [(1, 10), (2, 20)]).put 1 99).put 3
          30).get 1 0 = (false, 0) ∧
      ¬(((((((KFifoCache.init 2 : KFifoCache Nat Nat).putAll [(1, 10), (2, 20)]).put 1
                  99).put 3 30).get 2 0).1 = false) ∧
        ((((KFifoCache.init 2 : KFifoCache Nat Nat).putAll [(1, 10), (2, 20)]).put 1 99).put 3
            30).get 1 0 = (true, 99)) := by
  decide

/-- C3 (amended): `put` of a present key updates the entry's value in
place without changing its position in the queue, and `get` then returns
the new value; in the scenario — cache full with k1 first, update k1,
insert a fresh key — the eviction still targets k1, the head of the
queue (updating did not refresh its age), so afterwards k1 is absent
while k2 and the new key are present with their stored values. -/
theorem update_preserves_order [Inhabited Key] [Inhabited Value] :
    (∀ (st : KFifoCache Key Value) (k : Key) (v w d : Value),
        0 < st.capacity → mapFind k st.nodeMap = some w →
        st.put k v = { st with nodeMap := mapSet k v st.nodeMap } ∧
          (st.put k v).order = st.order ∧ (st.put k v).get k d = (true, v)) ∧
      (∀ (a b z : Key) (va vb w vz d : Value) (midp : List (Key × Value)),
        (a :: b :: (midp.map Prod.fst ++ [z])).Nodup →
        ((((KFifoCache.init ((midp.length : Int) + 2) : KFifoCache Key Value).putAll
              ((a, va) :: (b, vb) :: midp)).put a w).order =
            ((KFifoCache.init ((midp.length : Int) + 2) : KFifoCache Key Value).putAll
              ((a, va) :: (b, vb) :: midp)).order) ∧
          (((KFifoCache.init ((midp.length : Int) + 2) : KFifoCache Key Value).putAll
              ((a, va) :: (b, vb) :: midp)).put a w).get a d = (true, w) ∧
          ((((KFifoCache.init ((midp.length : Int) + 2) : KFifoCache Key Value).putAll
              ((a, va) :: (b, vb) :: midp)).put a w).put z vz).get a d = (false, d) ∧
          ((((KFifoCache.init ((midp.length : Int) + 2) : KFifoCache Key Value).putAll
              ((a, va) :: (b, vb) :: midp)).put a w).put z vz).get b d = (true, vb) ∧
          ((((KFifoCache.init ((midp.length : Int) + 2) : KFifoCache Key Value).putAll
              ((a, va) :: (b, vb) :: midp)).put a w).put z vz).get z d = (true, vz)) := by
  constructor
  · intro st k v w d hcap hfind
    refine ⟨put_update hcap hfind v, ?_, get_after_put hcap k v d⟩
    rw [put_update hcap hfind v]
  · intro a b z va vb w vz d midp hnd
    obtain ⟨ha, hnd1⟩ := List.nodup_cons.mp hnd
    obtain ⟨hb, hnd2⟩ := List.nodup_cons.mp hnd1
    have hmidnd : (midp.map Prod.fst).Nodup := (List.nodup_append.mp hnd2).1
    have hdisj := (List.nodup_append.mp hnd2).2.2
    have hzmid : z ∉ midp.map Prod.fst := fun hm => hdisj hm (List.mem_singleton_self z)
    have haz : a ≠ z := fun he => ha (List.mem_cons_of_mem b (List.mem_append_right _ (by simp [he])))
    have hab : a ≠ b := fun he => ha (he ▸ List.mem_cons_self b _)
    have hamid : a ∉ midp.map Prod.fst :=
      fun hm => ha (List.mem_cons_of_mem b (List.mem_append_left _ hm))
    have hbz : b ≠ z := fun he => hb (List.mem_append_right _ (by simp [he]))
    have hbmid : b ∉ midp.map Prod.fst := fun hm => hb (List.mem_append_left _ hm)
    have hfill := putAll_fill ((a, va) :: (b, vb) :: midp)
      (KFifoCache.init ((midp.length : Int) + 2) : KFifoCache Key Value) rfl
      (by
        simp only [List.map_cons, List.nodup_cons]
        refine ⟨?_, hbmid, hmidnd⟩
        simp only [List.mem_cons, not_or]
        exact ⟨hab, hamid⟩)
      (fun p hp => by simp [KFifoCache.init])
      (by
        simp only [KFifoCache.init, List.length_cons, List.length_nil]
        push_cast
        omega)
    have hst1 : (KFifoCache.init ((midp.length : Int) + 2) : KFifoCache Key Value).putAll
        ((a, va) :: (b, vb) :: midp) =
        { capacity := (midp.length : Int) + 2, order := a :: b :: midp.map Prod.fst,
          nodeMap := (a, va) :: (b, vb) :: midp } := by
      rw [hfill]
      rfl
    have hst2 :
        ({ capacity := (midp.length : Int) + 2, order := a :: b :: midp.map Prod.fst,
           nodeMap := (a, va) :: (b, vb) :: midp } : KFifoCache Key Value).put a w =
        { capacity := (midp.length : Int) + 2, order := a :: b :: midp.map Prod.fst,
          nodeMap := (a, w) :: (b, vb) :: midp } := by
      rw [put_update (by positivity) (show
        mapFind a ((a, va) :: (b, vb) :: midp) = some va by simp [mapFind]) w]
      simp [mapSet]
    have hst3 :
        ({ capacity := (midp.length : Int) + 2, order := a :: b :: midp.map Prod.fst,
           nodeMap := (a, w) :: (b, vb) :: midp } : KFifoCache Key Value).put z vz =
        { capacity := (midp.length : Int) + 2, order := (b :: midp.map Prod.fst) ++ [z],
          nodeMap := ((b, vb) :: midp) ++ [(z, vz)] } := by
      rw [put_fresh_full
        (by positivity)
        (by
          rw [mapFind_eq_none_iff]
          simp only [List.map_cons, List.mem_cons, not_or]
          exact ⟨fun he => haz he.symm, fun he => hbz he.symm, hzmid⟩)
        (by
          simp only [List.length_cons]
          push_cast
          omega)
        rfl vz]
      rw [mapErase_cons_self]
    rw [hst1, hst2, hst3]
    refine ⟨rfl, ?_, ?_, ?_, ?_⟩
    · exact get_hit (by simp [mapFind]) d
    · refine get_miss ?_ d
      rw [mapFind_eq_none_iff]
      simp only [List.map_append, List.map_cons, List.map_nil, List.cons_append,
        List.mem_cons, List.mem_append, List.mem_singleton, not_or]
      exact ⟨hab, hamid, haz, by simp⟩
    · exact get_hit (by simp [mapFind, List.cons_append]) d
    · refine get_hit ?_ d
      rw [show (((b, vb) :: midp) ++ [(z, vz)] : List (Key × Value)) =
        (b, vb) :: (midp ++ [(z, vz)]) from rfl]
      simp only [mapFind, if_neg (show ¬b = z from hbz)]
      rw [mapFind_append_of_none (by
        rw [mapFind_eq_none_iff]
        exact hzmid)]
      simp [mapFind]

theorem update_preserves_order_witness :
    (({ capacity := 2, order := [1, 2], nodeMap := [(1, 10), (2, 20)] } : KFifoCache Nat Nat).put
          1 99 =
        { capacity := 2, order := [1, 2], nodeMap := mapSet 1 99 [(1, 10), (2, 20)] }) ∧
      ((((KFifoCache.init ((([] : List (Nat × Nat)).length : Int) + 2) :
              KFifoCache Nat Nat).putAll ((1, 10) :: (2, 20) :: [])).put 1 99).put 3 30).get 1
          0 = (false, 0) ∧
      ((((KFifoCache.init ((([] : List (Nat × Nat)).length : Int) + 2) :
              KFifoCache Nat Nat).putAll ((1, 10) :: (2, 20) :: [])).put 1 99).put 3 30).get 2
          0 = (true, 20) ∧
      ((((KFifoCache.init ((([] : List (Nat × Nat)).length : Int) + 2) :
              KFifoCache Nat Nat).putAll ((1, 10) :: (2, 20) :: [])).put 1 99).put 3 30).get 3
          0 = (true, 30) :=
  ⟨(update_preserves_order.1 _ 1 99 10 0 (by decide) (by decide)).1,
    (update_preserves_order.2 1 2 3 10 20 99 30 0 [] (by decide)).2.2.1,
    (update_preserves_order.2 1 2 3 10 20 99 30 0 [] (by decide)).2.2.2.1,
    (update_preserves_order.2 1 2 3 10 20 99 30 0 [] (by decide)).2.2.2.2⟩

/-- C8: routing is the pure function `hash(key) mod sliceNum_`: it
depends only on the key and the shard count (fixed for the cache's
lifetime), so the same key always routes to the same shard index in
`put` and in `get`; `put` touches no shard other than the routed one,
and `put` immediately followed by `get` on the same key hits the shard
holding it and returns the stored value whenever the shards have
positive capacity. -/
theorem sharding_consistency [Inhabited Key] (hash : Key → Nat) (c : KHashFifoCache Key Value)
    (k : Key) (v vin : Value) (hn : 0 < c.sliceNum)
    (hlen : c.fifoSliceCaches.length = c.sliceNum.toNat)
    (hcap : ∀ s ∈ c.fifoSliceCaches, 0 < s.capacity) :
    (∀ c' : KHashFifoCache Key Value, c'.sliceNum = c.sliceNum →
        c'.sliceIndexOf hash k = c.sliceIndexOf hash k) ∧
      (∀ j, j ≠ c.sliceIndexOf hash k →
        sliceGet (c.put hash k v).fifoSliceCaches j = sliceGet c.fifoSliceCaches j) ∧
      (c.put hash k v).get hash k vin = (true, v) := by
  have hnn : 0 < c.sliceNum.toNat := by omega
  have hi : hash k % c.sliceNum.toNat < c.fifoSliceCaches.length := by
    rw [hlen]
    exact Nat.mod_lt _ hnn
  refine ⟨?_, ?_, ?_⟩
  · intro c' hc'
    unfold KHashFifoCache.sliceIndexOf
    rw [hc']
  · intro j hj
    unfold KHashFifoCache.put
    dsimp only
    exact sliceGet_sliceModify_ne hj
  · unfold KHashFifoCache.get KHashFifoCache.put KHashFifoCache.sliceIndexOf
    dsimp only
    rw [sliceGet_sliceModify_self hi]
    exact get_after_put (hcap _ (sliceGet_mem hi)) k v vin

theorem sharding_consistency_witness :
    ((KHashFifoCache.mk' 100 2 3 : KHashFifoCache Nat Nat).sliceIndexOf (fun n => n) 5 =
        (KHashFifoCache.mk' 4 2 8 : KHashFifoCache Nat Nat).sliceIndexOf (fun n => n) 5) ∧
      (sliceGet ((KHashFifoCache.mk' 4 2 8 : KHashFifoCache Nat Nat).put (fun n => n) 5
            55).fifoSliceCaches 0 =
        sliceGet (KHashFifoCache.mk' 4 2 8 : KHashFifoCache Nat Nat).fifoSliceCaches 0) ∧
      ((KHashFifoCache.mk' 4 2 8 : KHashFifoCache Nat Nat).put (fun n => n) 5 55).get
          (fun n => n) 5 0 = (true, 55) :=
  ⟨(sharding_consistency (fun n => n) (KHashFifoCache.mk' 4 2 8) 5 55 0 (by decide)
        (by decide) (by decide)).1 (KHashFifoCache.mk' 100 2 3) (by decide),
    (sharding_consistency (fun n => n) (KHashFifoCache.mk' 4 2 8) 5 55 0 (by decide)
        (by decide) (by decide)).2.1 0 (by decide),
    (sharding_consistency (fun n => n) (KHashFifoCache.mk' 4 2 8) 5 55 0 (by decide)
        (by decide) (by decide)).2.2⟩

/-- C9 counterexample: at total capacity `T = 2^31` with `N = 1` shard
the claim predicts a shard of capacity `ceil(T / N) = 2^31`; the
constructor instead narrows the `size_t` slice size through
`KFifoCache(int)`, wrapping to `-2^31`, so the single shard has a
negative capacity — different from the claimed ceiling — and is inert:
a `put` routed to it is a no-op and the following `get` misses. -/
theorem sharded_construction_cex :
    (KHashFifoCache.mk' (2 ^ 31) 1 8 : KHashFifoCache Nat Nat).fifoSliceCaches =
        [KFifoCache.init (-(2 ^ 31))] ∧
      ¬(sliceGet (KHashFifoCache.mk' (2 ^ 31) 1 8 :
            KHashFifoCache Nat Nat).fifoSliceCaches 0).capacity =
          (sliceSize (2 ^ 31) (1 : Int).toNat : Int) ∧
      ((KHashFifoCache.mk' (2 ^ 31) 1 8 : KHashFifoCache Nat Nat).put (fun n => n) 7
          70).get (fun n => n) 7 0 = (false, 0) := by
  decide

/-- C9 (amended): constructing the sharded cache with total capacity `T`
and a positive shard count `N` builds exactly `N` independent shards;
whenever the computation stays within the exactly-representable range —
`T < 2^53`, so the double division is exact, and `ceil(T / N) < 2^31`,
so the `size_t` to `int` narrowing is the identity — each shard has
capacity `sliceSize T N`, the ceiling of `T / N` (characterized below
as the least `s` with `T ≤ N * s`), and the summed effective capacity
is `N * ceil(T / N)`, at least the requested `T` and strictly more for
some in-range inputs (final conjunct); outside that range the narrowing
wraps (see the counterexample).  A non-positive `N` falls back to the
host's available parallelism `hw`. -/
theorem sharded_construction [Inhabited Key] (T : Nat) (N : Int) (hw : Nat) :
    (0 < N → T < 2 ^ 53 → sliceSize T N.toNat < 2 ^ 31 →
        (KHashFifoCache.mk' T N hw : KHashFifoCache Key Value).sliceNum = N ∧
        (KHashFifoCache.mk' T N hw : KHashFifoCache Key Value).fifoSliceCaches.length =
          N.toNat ∧
        (∀ s ∈ (KHashFifoCache.mk' T N hw : KHashFifoCache Key Value).fifoSliceCaches,
          s.capacity = (sliceSize T N.toNat : Int)) ∧
        (((KHashFifoCache.mk' T N hw : KHashFifoCache Key Value).fifoSliceCaches.map
            fun s => s.capacity).sum = (N.toNat : Int) * (sliceSize T N.toNat : Int)) ∧
        (T : Int) ≤ (N.toNat : Int) * (sliceSize T N.toNat : Int) ∧
        (∀ s : Nat, T ≤ N.toNat * s → sliceSize T N.toNat ≤ s)) ∧
      (N ≤ 0 → (KHashFifoCache.mk' T N hw : KHashFifoCache Key Value).sliceNum = (hw : Int)) ∧
      (∃ T' : Nat, ∃ N' : Int, 0 < N' ∧ T' < 2 ^ 53 ∧ sliceSize T' N'.toNat < 2 ^ 31 ∧
        (T' : Int) <
          ((KHashFifoCache.mk' T' N' hw : KHashFifoCache Key Value).fifoSliceCaches.map
            fun s => s.capacity).sum) := by
  refine ⟨?_, ?_, ?_⟩
  · intro hN hT hfit
    have hNt : 0 < N.toNat := by omega
    unfold KHashFifoCache.mk'
    dsimp only
    rw [if_pos hN]
    refine ⟨rfl, by simp, ?_, ?_, ?_, (sliceSize_spec hNt).2⟩
    · intro s hs
      rw [List.eq_of_mem_replicate hs]
      show sizeTToInt (sliceSize T N.toNat) = _
      exact sizeTToInt_of_lt hfit
    · rw [List.map_replicate, List.sum_replicate]
      simp [nsmul_eq_mul, KFifoCache.init, sizeTToInt_of_lt hfit]
    · exact_mod_cast (sliceSize_spec hNt).1
  · intro hN
    unfold KHashFifoCache.mk'
    dsimp only
    rw [if_neg (by omega)]
  · refine ⟨10, 3, by norm_num, by norm_num, by decide, ?_⟩
    unfold KHashFifoCache.mk'
    norm_num [sliceSize, sizeTToInt, List.map_replicate, List.sum_replicate, KFifoCache.init]
    decide

theorem sharded_construction_witness :
    (KHashFifoCache.mk' 10 3 8 : KHashFifoCache Nat Nat).sliceNum = 3 ∧
      (KHashFifoCache.mk' 10 3 8 : KHashFifoCache Nat Nat).fifoSliceCaches.length =
        (3 : Int).toNat ∧
      (10 : Int) ≤ (((3 : Int).toNat : Nat) : Int) * (sliceSize 10 (3 : Int).toNat : Int) ∧
      sliceSize 10 (3 : Int).toNat ≤ 4 ∧
      (KHashFifoCache.mk' 10 (-1) 8 : KHashFifoCache Nat Nat).sliceNum = ((8 : Nat) : Int) :=
  ⟨((@sharded_construction Nat Nat _ _ 10 3 8).1 (by decide) (by decide) (by decide)).1,
    ((@sharded_construction Nat Nat _ _ 10 3 8).1 (by decide) (by decide) (by decide)).2.1,
    ((@sharded_construction Nat Nat _ _ 10 3 8).1 (by decide) (by decide)
        (by decide)).2.2.2.2.1,
    ((@sharded_construction Nat Nat _ _ 10 3 8).1 (by decide) (by decide)
        (by decide)).2.2.2.2.2 4 (by decide),
    (@sharded_construction Nat Nat _ _ 10 (-1) 8).2.1 (by decide)⟩

end Cache
